import Mathlib

/-!
Verification of the minRLNProver core (incremental Merkle tree, Group,
Identity, proof-input assembly) against its natural-language specification.

The definitions below are a shallow embedding of `src/dist/index.js`,
specialized to `arity = 2` (the only arity used: the constructor default,
and the value `Group` passes explicitly).  Field elements and JS bigints
are modelled as `Nat`; the external hash functions (Poseidon, Keccak,
SHA-512) are pure parameters, as the spec declares them out of scope.
Fallible operations (JS `throw`) return `Except String`.
-/

namespace MinRLN

/-- Models a JS array element assignment `l[i] = v` under the invariant
`i ≤ l.length` maintained by the tree code (JS arrays never acquire holes
here): in-range assignment overwrites, `i = l.length` appends. -/
def listSet (l : List Nat) (i : Nat) (v : Nat) : List Nat :=
  if i < l.length then l.set i v else l ++ [v]

/-- The zero-value chain of the constructor loop: `zeroIter hashF z n` is the
zero value after `n` updates `zeroValue = hash([zeroValue, zeroValue])`. -/
def zeroIter (hashF : List Nat → Nat) (z : Nat) : Nat → Nat
  | 0 => z
  | n + 1 => hashF [zeroIter hashF z n, zeroIter hashF z n]

/-- The `_zeroes` array built by the `IncrementalMerkleTree` constructor:
one zero value per level `0 ≤ level < depth`. -/
def zeroesList (hashF : List Nat → Nat) (z : Nat) (depth : Nat) : List Nat :=
  (List.range depth).map (zeroIter hashF z)

/-- One step of the constructor's bottom-up bulk build: from the node list of
a level (with zero value `zl`), the node list of the next level.  Mirrors
`for index in 0 .. ceil(len/2) - 1: nodes[level+1][index] =
hash([nodes[level][2*index] ?? zeroes[level], nodes[level][2*index+1] ?? zeroes[level]])`. -/
def buildLevelUp (hashF : List Nat → Nat) (zl : Nat) (cur : List Nat) : List Nat :=
  (List.range ((cur.length + 1) / 2)).map fun i =>
    hashF [cur.getD (2 * i) zl, cur.getD (2 * i + 1) zl]

/-- All levels of the bulk build, bottom-up, consuming the per-level zeroes. -/
def buildLevels (hashF : List Nat → Nat) : List Nat → List Nat → List (List Nat)
  | [], cur => [cur]
  | zl :: zs, cur => cur :: buildLevels hashF zs (buildLevelUp hashF zl cur)

/-- The tree state: `zeroes[0..depth-1]`, `nodes[0..depth]`
(`nodes[0]` = leaves, `nodes[depth][0]` = root). -/
structure Tree where
  depth : Nat
  zeroes : List Nat
  nodes : List (List Nat)
  deriving Repr, DecidableEq

/-- Root getter: `nodes[depth][0]`. -/
def Tree.root (t : Tree) : Nat := (t.nodes.getD t.depth []).getD 0 0

/-- The `IncrementalMerkleTree` constructor (arity 2): depth must be in
`[1, 32]`, at most `2^depth` leaves; builds `zeroes` bottom-up, then all node
levels (bulk path) or just the default root (empty path). -/
def mkTree (hashF : List Nat → Nat) (depth zeroValue : Nat) (leaves : List Nat) :
    Except String Tree :=
  if depth < 1 ∨ 32 < depth then .error "The tree depth must be between 1 and 32"
  else if 2 ^ depth < leaves.length then
    .error "The tree cannot contain more than 2^depth leaves"
  else .ok
    { depth := depth
      zeroes := zeroesList hashF zeroValue depth
      nodes :=
        if 0 < leaves.length then
          buildLevels hashF (zeroesList hashF zeroValue depth) leaves
        else
          List.replicate depth [] ++ [[zeroIter hashF zeroValue depth]] }

/-- The common upward loop of `insert` and `update`: walks the levels in
`levels` (always `[level, …, depth-1]`), at each level writes the carried
node at `index`, re-reads the two-slot window (zero-padded past the current
node count), hashes, and moves to `index / 2`.  Returns the updated node
levels and the final carried node (the new root). -/
def upLoop (hashF : List Nat → Nat) (zeroes : List Nat) :
    List Nat → List (List Nat) → Nat → Nat → List (List Nat) × Nat
  | [], nodes, node, _ => (nodes, node)
  | level :: rest, nodes, node, index =>
      let cur := listSet (nodes.getD level []) index node
      let levelStart := index - index % 2
      let child := fun i => if i < cur.length then cur.getD i 0 else zeroes.getD level 0
      upLoop hashF zeroes rest (nodes.set level cur)
        (hashF [child levelStart, child (levelStart + 1)]) (index / 2)

/-- The free function `insert`: fails when the tree is full, otherwise runs
the upward loop from the append position `nodes[0].length`. -/
def insertLeaf (hashF : List Nat → Nat) (leaf depth : Nat)
    (nodes : List (List Nat)) (zeroes : List Nat) :
    Except String (List (List Nat) × Nat) :=
  if 2 ^ depth ≤ (nodes.getD 0 []).length then .error "The tree is full"
  else .ok (upLoop hashF zeroes (List.range depth) nodes leaf (nodes.getD 0 []).length)

/-- `IncrementalMerkleTree.prototype.insert`: runs the free function and
stores the returned root at `nodes[depth][0]`. -/
def Tree.insert (hashF : List Nat → Nat) (t : Tree) (leaf : Nat) : Except String Tree :=
  (insertLeaf hashF leaf t.depth t.nodes t.zeroes).map fun r =>
    { t with nodes := r.1.set t.depth (listSet (r.1.getD t.depth []) 0 r.2) }

/-- The free function `update`: fails when the index is out of range,
otherwise runs the same upward loop rooted at `index`. -/
def updateLeaf (hashF : List Nat → Nat) (index value depth : Nat)
    (nodes : List (List Nat)) (zeroes : List Nat) :
    Except String (List (List Nat) × Nat) :=
  if (nodes.getD 0 []).length ≤ index then .error "The leaf does not exist in this tree"
  else .ok (upLoop hashF zeroes (List.range depth) nodes value index)

/-- `IncrementalMerkleTree.prototype.update`. -/
def Tree.update (hashF : List Nat → Nat) (t : Tree) (index value : Nat) :
    Except String Tree :=
  (updateLeaf hashF index value t.depth t.nodes t.zeroes).map fun r =>
    { t with nodes := r.1.set t.depth (listSet (r.1.getD t.depth []) 0 r.2) }

/-- `IncrementalMerkleTree.prototype.delete`: `update(index, zeroes[0])`. -/
def Tree.delete (hashF : List Nat → Nat) (t : Tree) (index : Nat) : Except String Tree :=
  Tree.update hashF t index (t.zeroes.getD 0 0)

/-- The free function `indexOf`: linear search of `nodes[0]` by value
equality; `-1` when absent. -/
def indexOfLeaf (leaf : Nat) (nodes : List (List Nat)) : Int :=
  match (nodes.getD 0 []).findIdx? (fun x => x == leaf) with
  | some i => (i : Int)
  | none => -1

/-- `MerkleProof` as the tree produces it: `siblings[level]` is the sibling
window of the level (a list, one element per non-self slot). -/
structure MerkleProof where
  root : Nat
  leaf : Nat
  pathIndices : List Nat
  siblings : List (List Nat)
  deriving Repr, DecidableEq

/-- The level loop of `createProof`: records `position = index % 2` and the
sibling window (each non-self slot of the pair, zero-padded past the current
node count), then moves to `index / 2`. -/
def proofLoop (zeroes : List Nat) :
    List Nat → List (List Nat) → Nat → List Nat × List (List Nat)
  | [], _, _ => ([], [])
  | level :: rest, nodes, index =>
      let position := index % 2
      let levelStart := index - position
      let cur := nodes.getD level []
      let elem := fun i => if i < cur.length then cur.getD i 0 else zeroes.getD level 0
      let sibs := (if levelStart = index then [] else [elem levelStart]) ++
        (if levelStart + 1 = index then [] else [elem (levelStart + 1)])
      let res := proofLoop zeroes rest nodes (index / 2)
      (position :: res.1, sibs :: res.2)

/-- The free function `createProof`: fails when `index < 0` or
`index ≥ nodes[0].length` (`index` is an `Int`, since callers pass the `-1`
of a failed `indexOf` through); otherwise runs the level loop. -/
def createProofFn (index : Int) (depth : Nat) (nodes : List (List Nat))
    (zeroes : List Nat) (root : Nat) : Except String MerkleProof :=
  if index < 0 ∨ ((nodes.getD 0 []).length : Int) ≤ index then
    .error "The leaf does not exist in this tree"
  else
    let res := proofLoop zeroes (List.range depth) nodes index.toNat
    .ok { root := root, leaf := (nodes.getD 0 []).getD index.toNat 0,
          pathIndices := res.1, siblings := res.2 }

/-- `IncrementalMerkleTree.prototype.createProof`. -/
def Tree.createProof (t : Tree) (index : Int) : Except String MerkleProof :=
  createProofFn index t.depth t.nodes t.zeroes t.root

/-- `children.splice(p, 0, node)`: insert `node` at position `p`
(clamped to the list length, as JS `splice` clamps). -/
def spliceInsert (l : List Nat) (p : Nat) (v : Nat) : List Nat :=
  l.take p ++ v :: l.drop p

/-- The fold of `verifyProof`: one hash per siblings entry, reading
`pathIndices[i]` positionally (a missing entry reads as position 0, as JS
`splice(undefined, 0, node)` does). -/
def verifyFold (hashF : List Nat → Nat) :
    List (List Nat) → List Nat → Nat → Nat
  | [], _, node => node
  | sib :: rest, pis, node =>
      verifyFold hashF rest pis.tail (hashF (spliceInsert sib (pis.headD 0) node))

/-- The free function `verifyProof`: pure boolean, `root === node` after the
upward fold. -/
def verifyProofFn (hashF : List Nat → Nat) (proof : MerkleProof) : Bool :=
  proof.root == verifyFold hashF proof.siblings proof.pathIndices proof.leaf

/-- The `Group` class: a room id and its Merkle tree.  The tree's hash is
`poseidon2`, its zero value `hash(id)` (a Keccak-based derivation, external);
both are parameters of the operations below. -/
structure Group where
  id : Nat
  tree : Tree
  deriving Repr, DecidableEq

/-- The `Group` constructor: depth must be in `[16, 32]`; builds an
`IncrementalMerkleTree(poseidon2, treeDepth, hash(id), 2, members)`.
`zeroDerive` is `hash` (Keccak-256 of the zero-padded two's complement of
`id`, shifted right 8 bits) — external, kept abstract. -/
def mkGroup (hashF : List Nat → Nat) (zeroDerive : Nat → Nat)
    (id treeDepth : Nat) (members : List Nat) : Except String Group :=
  if treeDepth < 16 ∨ 32 < treeDepth then
    .error "The tree depth must be between 16 and 32"
  else
    (mkTree hashF treeDepth (zeroDerive id) members).map fun t => { id := id, tree := t }

/-- `Group.prototype.indexOf`: delegates the member value to the tree
unchanged (no coercion). -/
def Group.indexOf (g : Group) (member : Nat) : Int :=
  indexOfLeaf member g.tree.nodes

/-- The group-level Merkle proof: each level's sibling window collapsed to a
single scalar. -/
structure GroupMerkleProof where
  root : Nat
  leaf : Nat
  pathIndices : List Nat
  siblings : List Nat
  deriving Repr, DecidableEq

/-- `Group.prototype.generateMerkleProof`: the tree's `createProof`, with
`siblings = siblings.map(s => s[0])`. -/
def Group.generateMerkleProof (g : Group) (index : Int) :
    Except String GroupMerkleProof :=
  (g.tree.createProof index).map fun mp =>
    { root := mp.root, leaf := mp.leaf, pathIndices := mp.pathIndices,
      siblings := mp.siblings.map fun s => s.getD 0 0 }

/-- The `proofInputsI` record assembled by `genProof` before it is handed to
the external prover. -/
structure ProofInputs where
  rlnIdentifier : Nat
  identitySecret : Nat
  userMessageLimit : Nat
  messageId : Nat
  merkleProof : GroupMerkleProof
  x : Nat
  epoch : Nat
  deriving Repr, DecidableEq

/-- The tree's hash as `genProof` supplies it: `poseidon2` applied to the
two-element children window. -/
def pairHash (p2 : Nat → Nat → Nat) : List Nat → Nat :=
  fun children => p2 (children.getD 0 0) (children.getD 1 0)

/-- The synchronous part of `genProof` (everything before the external
`prover.generateProof` call): computes the message hash, rebuilds the room's
`Group` from the membership snapshot at depth 20, finds the rate commitment
`poseidon2(identity.commitment, userMessageLimit)` in the group and assembles
the proof inputs; a thrown error at any step propagates.  `p1`/`p2` are
poseidon1/poseidon2, `str2BigIntF` the external message encoder, `epochNow`
the `Date.now()` reading. -/
def genProofInputs (p1 : Nat → Nat) (p2 : Nat → Nat → Nat)
    (zeroDerive : Nat → Nat) (str2BigIntF : String → Nat) (epochNow : Nat)
    (roomId : Nat) (members : List Nat) (message : String)
    (identitySecret identityCommitment : Nat) (messageId messageLimit : Nat) :
    Except String ProofInputs :=
  match mkGroup (pairHash p2) zeroDerive roomId 20 members with
  | .error e => .error e
  | .ok group =>
    match group.generateMerkleProof (group.indexOf (p2 identityCommitment messageLimit)) with
    | .error e => .error e
    | .ok merkleProof =>
      .ok { rlnIdentifier := roomId, identitySecret := identitySecret,
            userMessageLimit := messageLimit, messageId := messageId,
            merkleProof := merkleProof, x := p1 (str2BigIntF message), epoch := epochNow }

/-! ## Identity -/

/-- `s.slice(0, n)` on a JS string. -/
def strTake (s : String) (n : Nat) : String := String.mk (s.data.take n)

/-- `s.slice(n)` on a JS string. -/
def strDrop (s : String) (n : Nat) : String := String.mk (s.data.drop n)

/-- The numeric value of one hex digit (as `BigInt("0x…")` reads it);
non-digits map to 0 (they never occur on the inputs used). -/
def hexCharVal (c : Char) : Nat :=
  if 48 ≤ c.toNat ∧ c.toNat ≤ 57 then c.toNat - 48
  else if 97 ≤ c.toNat ∧ c.toNat ≤ 102 then c.toNat - 87
  else if 65 ≤ c.toNat ∧ c.toNat ≤ 70 then c.toNat - 55
  else 0

/-- `BigInt("0x" + s)`: big-endian hex parse of `s`. -/
def hexStrToNat (s : String) : Nat :=
  s.data.foldl (fun acc c => 16 * acc + hexCharVal c) 0

/-- The numeric value of one decimal digit. -/
def decCharVal (c : Char) : Nat := if 48 ≤ c.toNat ∧ c.toNat ≤ 57 then c.toNat - 48 else 0

/-- `BigInt(s)` for a decimal string `s`. -/
def decStrToNat (s : String) : Nat :=
  s.data.foldl (fun acc c => 10 * acc + decCharVal c) 0

/-- `BigNumber.from(s).toBigInt()` / `BigInt(s)` on a numeric string:
`0x`-prefixed strings parse as hex, others as decimal. -/
def jsBigIntFromString (s : String) : Nat :=
  if s.data.take 2 = ['0', 'x'] then hexStrToNat (strDrop s 2) else decStrToNat s

/-- `s.padStart(n, "0")`. -/
def padStartZeros (s : String) (n : Nat) : String :=
  String.mk (List.replicate (n - s.length) '0') ++ s

/-- The `Identity` state: `(trapdoor, nullifier)` with the derived
`secret = poseidon2(nullifier, trapdoor)` and `commitment = poseidon1(secret)`. -/
structure IdentityT where
  trapdoor : Nat
  nullifier : Nat
  secret : Nat
  commitment : Nat
  deriving Repr, DecidableEq

/-- The common tail of every `Identity` construction mode: derive secret and
commitment from `(nullifier, trapdoor)`. -/
def mkIdentityParts (p1 : Nat → Nat) (p2 : Nat → Nat → Nat)
    (trapdoor nullifier : Nat) : IdentityT :=
  { trapdoor := trapdoor, nullifier := nullifier,
    secret := p2 nullifier trapdoor,
    commitment := p1 (p2 nullifier trapdoor) }

/-- The seeded (non-JSON string) branch of the `Identity` constructor:
`h = sha512(seed).padStart(128, "0")`;
`trapdoor = BigInt("0x" + h.slice(64)) >> 3`;
`nullifier = BigInt("0x" + h.slice(0, 64)) >> 3`.
`sha512hex` is the external SHA-512 hex-digest function. -/
def identityFromSeed (sha512hex : String → String) (p1 : Nat → Nat)
    (p2 : Nat → Nat → Nat) (seed : String) : IdentityT :=
  let h := padStartZeros (sha512hex seed) 128
  mkIdentityParts p1 p2 (hexStrToNat (strDrop h 64) >>> 3)
    (hexStrToNat (strTake h 64) >>> 3)

/-- The serialized (JSON array) branch of the `Identity` constructor, applied
to the parsed array: `[trapdoor, nullifier] = JSON.parse(s)`, each coerced
with `BigNumber.from`. -/
def identityFromSerialized (p1 : Nat → Nat) (p2 : Nat → Nat → Nat)
    (arr : List String) : IdentityT :=
  mkIdentityParts p1 p2 (jsBigIntFromString (arr.getD 0 ""))
    (jsBigIntFromString (arr.getD 1 ""))

/-- One hex digit of `BigInt.prototype.toString(16)` (lowercase). -/
def hexDigitChar (n : Nat) : Char :=
  if n < 10 then Char.ofNat (48 + n) else Char.ofNat (87 + n)

/-- Digit accumulation of `BigInt.prototype.toString(16)`. -/
def natToHexAux (n : Nat) (acc : List Char) : List Char :=
  if h : n < 16 then hexDigitChar n :: acc
  else natToHexAux (n / 16) (hexDigitChar (n % 16) :: acc)
  decreasing_by exact Nat.div_lt_self (Nat.lt_of_lt_of_le (by norm_num) (Nat.le_of_not_lt h)) (by norm_num)

/-- `BigInt.prototype.toString(16)`: minimal lowercase hex, `"0"` for zero. -/
def natToHex (n : Nat) : String := String.mk (natToHexAux n [])

/-- `Identity.prototype.toString()`, at the level of the JSON array it
serializes: `["0x" + trapdoor.toString(16), "0x" + nullifier.toString(16)]`
(the JSON wrapping of a two-element string array is kept implicit; hex
digits need no JSON escaping). -/
def identityToStringArr (i : IdentityT) : List String :=
  ["0x" ++ natToHex i.trapdoor, "0x" ++ natToHex i.nullifier]

/-! ## JS value layer for the Group member-coercion claim

`Array.prototype.indexOf` compares with `===`, which distinguishes JS
numbers, strings and bigints even when value-equal.  The definitions below
model the leaf array `nodes[0]` of a group's tree together with the member
values the `Group` methods pass into it: `addMember` coerces with
`BigInt(member)`, `indexOf` and `updateMember` pass the value through
unchanged.  (The hashed upper levels are independent of this coercion
question and are modelled over `Nat` above.) -/

/-- A JS primitive value as the `Group` API receives it. -/
inductive JSVal where
  | num : Nat → JSVal
  | str : String → JSVal
  | big : Nat → JSVal
  deriving Repr, DecidableEq

/-- JS strict equality `===` on primitives: false across types. -/
def jsStrictEq : JSVal → JSVal → Bool
  | .num a, .num b => a == b
  | .str a, .str b => a == b
  | .big a, .big b => a == b
  | _, _ => false

/-- `BigInt(member)`. -/
def jsBigInt : JSVal → JSVal
  | .num n => .big n
  | .str s => .big (jsBigIntFromString s)
  | .big n => .big n

/-- `nodes[0].indexOf(member)` as `Group.prototype.indexOf` reaches it: the
member value is passed through uncoerced. -/
def leavesIndexOf (leaves : List JSVal) (member : JSVal) : Int :=
  match leaves.findIdx? (fun x => jsStrictEq x member) with
  | some i => (i : Int)
  | none => -1

/-- The leaf-array effect of `Group.prototype.addMember`: the tree's insert
appends `BigInt(member)` at `nodes[0][nodes[0].length]`. -/
def leavesAddMember (leaves : List JSVal) (member : JSVal) : List JSVal :=
  leaves ++ [jsBigInt member]

/-- The leaf-array effect of `Group.prototype.updateMember`: the tree's
update writes the member value uncoerced at `nodes[0][index]`. -/
def leavesUpdateMember (leaves : List JSVal) (index : Nat) (member : JSVal) :
    List JSVal :=
  leaves.set index member

/-! ## General list lemmas -/

theorem eq_of_getD {α : Type} (d : α) (l₁ l₂ : List α) (hl : l₁.length = l₂.length)
    (h : ∀ j, j < l₁.length → l₁.getD j d = l₂.getD j d) : l₁ = l₂ := by
  apply List.ext_getElem hl
  intro i h₁ h₂
  have := h i h₁
  rwa [List.getD_eq_getElem l₁ d h₁, List.getD_eq_getElem l₂ d h₂] at this

theorem mapRange_getD {α : Type} (f : Nat → α) (n j : Nat) (d : α) :
    ((List.range n).map f).getD j d = if j < n then f j else d := by
  by_cases h : j < n
  · rw [List.getD_eq_getElem _ d (by simpa using h), if_pos h]
    simp
  · rw [List.getD_eq_default _ d (by simpa using Nat.le_of_not_lt h), if_neg h]

theorem listSet_length (l : List Nat) (i v : Nat) :
    (listSet l i v).length = if i < l.length then l.length else l.length + 1 := by
  unfold listSet
  by_cases h : i < l.length <;> simp [h]

theorem listSet_getD_self (l : List Nat) (i v d : Nat) (h : i ≤ l.length) :
    (listSet l i v).getD i d = v := by
  unfold listSet
  rcases Nat.lt_or_ge i l.length with h' | h'
  · rw [if_pos h', List.getD_eq_getElem _ d (by simpa using h')]
    simp [List.getElem_set_self]
  · have : i = l.length := le_antisymm h h'
    subst this
    rw [if_neg (lt_irrefl _), List.getD_eq_getElem _ d (by simp)]
    simp

theorem listSet_getD_ne (l : List Nat) (i v d j : Nat) (hij : j ≠ i) (h : i ≤ l.length) :
    (listSet l i v).getD j d = l.getD j d := by
  unfold listSet
  rcases Nat.lt_or_ge i l.length with h' | h'
  · rw [if_pos h']
    rcases Nat.lt_or_ge j l.length with hj | hj
    · rw [List.getD_eq_getElem _ d (by simpa using hj), List.getD_eq_getElem _ d hj]
      exact List.getElem_set_ne (Ne.symm hij) _
    · rw [List.getD_eq_default _ d (by simpa using hj), List.getD_eq_default _ d hj]
  · have : i = l.length := le_antisymm h h'
    subst this
    rw [if_neg (lt_irrefl _)]
    rcases Nat.lt_or_ge j l.length with hj | hj
    · rw [List.getD_eq_getElem _ d (by simp; omega), List.getD_eq_getElem _ d hj]
      exact List.getElem_append_left hj
    · have hj' : l.length + 1 ≤ j := by omega
      rw [List.getD_eq_default _ d (by simpa using hj'), List.getD_eq_default _ d hj]

/-! ## C8: empty-tree root extends the zero chain -/

theorem zeroesList_getD (hashF : List Nat → Nat) (z : Nat) (depth l : Nat) (h : l < depth) :
    (zeroesList hashF z depth).getD l 0 = zeroIter hashF z l := by
  unfold zeroesList
  rw [mapRange_getD, if_pos h]

/-- C8: for every depth in `[1,32]`, a tree constructed with an empty leaves
list has root `H(zeroes[depth-1], zeroes[depth-1])`, the continuation of the
zero chain `zeroes[0] = zeroValue`, `zeroes[l] = H(zeroes[l-1], zeroes[l-1])`
one level beyond the last precomputed entry. -/
theorem emptyTree_root_extends_zero_chain (hashF : List Nat → Nat) (z depth : Nat)
    (h1 : 1 ≤ depth) (h2 : depth ≤ 32) :
    ∃ t, mkTree hashF depth z [] = .ok t ∧
      t.root = hashF [t.zeroes.getD (depth - 1) 0, t.zeroes.getD (depth - 1) 0] ∧
      t.zeroes.length = depth ∧
      t.zeroes.getD 0 0 = z ∧
      (∀ l, 0 < l → l < depth →
        t.zeroes.getD l 0 = hashF [t.zeroes.getD (l - 1) 0, t.zeroes.getD (l - 1) 0]) := by
  refine ⟨{ depth := depth, zeroes := zeroesList hashF z depth,
            nodes := List.replicate depth [] ++ [[zeroIter hashF z depth]] }, ?_, ?_, ?_, ?_, ?_⟩
  · unfold mkTree
    rw [if_neg (by omega), if_neg (by simp)]
    simp
  · unfold Tree.root
    have hnodes : ((List.replicate depth ([] : List Nat) ++
        [[zeroIter hashF z depth]]).getD depth []) = [zeroIter hashF z depth] := by
      rw [List.getD_eq_getElem _ _ (by simp)]
      have : depth = (List.replicate depth ([] : List Nat)).length + 0 := by simp
      rw [List.getElem_append_right (by simp)]
      simp
    simp only [hnodes]
    rw [zeroesList_getD hashF z depth (depth - 1) (by omega)]
    have : depth = (depth - 1) + 1 := by omega
    rw [this]
    simp [zeroIter]
  · simp [zeroesList]
  · rw [zeroesList_getD hashF z depth 0 (by omega)]
    rfl
  · intro l hl hld
    rw [zeroesList_getD hashF z depth l hld, zeroesList_getD hashF z depth (l - 1) (by omega)]
    have : l = (l - 1) + 1 := by omega
    rw [this]
    simp [zeroIter]

/-- Witness for the C8 theorem at depth 1. -/
theorem emptyTree_root_extends_zero_chain_witness :
    (1 ≤ 1 ∧ 1 ≤ 32) ∧
    ∃ t, mkTree (fun l => l.foldl (· + ·) 1) 1 7 [] = .ok t ∧
      t.root = (fun l => l.foldl (· + ·) 1) [t.zeroes.getD 0 0, t.zeroes.getD 0 0] ∧
      t.zeroes.length = 1 ∧
      t.zeroes.getD 0 0 = 7 ∧
      (∀ l, 0 < l → l < 1 →
        t.zeroes.getD l 0 = (fun l => l.foldl (· + ·) 1)
          [t.zeroes.getD (l - 1) 0, t.zeroes.getD (l - 1) 0]) :=
  ⟨⟨le_refl 1, by omega⟩,
    emptyTree_root_extends_zero_chain (fun l => l.foldl (· + ·) 1) 7 1 (le_refl 1) (by omega)⟩

/-! ## C6: verifyProof is a pure boolean fold -/

/-- The spec's reading of `verifyProof` (§4.1): fold from the leaf upward,
pairing each siblings window with its path index, inserting the running node
into the window at the path index and hashing; compare the result with the
root. -/
def specVerifyProof (hashF : List Nat → Nat) (proof : MerkleProof) : Bool :=
  decide (((proof.siblings.zip proof.pathIndices).foldl
    (fun node sp => hashF (spliceInsert sp.1 sp.2 node)) proof.leaf) = proof.root)

theorem verifyFold_eq_zip_foldl (hashF : List Nat → Nat) :
    ∀ (sibs : List (List Nat)) (pis : List Nat) (node : Nat),
      pis.length = sibs.length →
      verifyFold hashF sibs pis node =
        (sibs.zip pis).foldl (fun node sp => hashF (spliceInsert sp.1 sp.2 node)) node := by
  intro sibs
  induction sibs with
  | nil => intro pis node _; simp [verifyFold]
  | cons s rest ih =>
    intro pis node hlen
    cases pis with
    | nil => simp at hlen
    | cons p ps =>
      simp only [verifyFold, List.zip_cons_cons, List.foldl_cons, List.headD, List.tail]
      exact ih ps _ (by simpa using hlen)

/-- C6: `verifyProof` is total (never an exception — it is a plain `Bool`
valued function of the proof) and its value is exactly the comparison of the
upward fold with `proof.root`: it returns `false` on verification failure. -/
theorem verifyProof_is_pure_boolean_fold (hashF : List Nat → Nat) (proof : MerkleProof)
    (hlen : proof.pathIndices.length = proof.siblings.length) :
    verifyProofFn hashF proof = specVerifyProof hashF proof := by
  unfold verifyProofFn specVerifyProof
  rw [verifyFold_eq_zip_foldl hashF proof.siblings proof.pathIndices proof.leaf hlen]
  by_cases h : ((proof.siblings.zip proof.pathIndices).foldl
      (fun node sp => hashF (spliceInsert sp.1 sp.2 node)) proof.leaf) = proof.root
  · simp [h]
  · simp [h, Ne.symm h]

/-- Witness for the C6 theorem on a concrete proof object. -/
theorem verifyProof_is_pure_boolean_fold_witness :
    (([1, 0] : List Nat).length = ([[5], [6]] : List (List Nat)).length) ∧
    verifyProofFn (fun l => l.foldl (· + ·) 1)
        { root := 99, leaf := 2, pathIndices := [1, 0], siblings := [[5], [6]] } =
      specVerifyProof (fun l => l.foldl (· + ·) 1)
        { root := 99, leaf := 2, pathIndices := [1, 0], siblings := [[5], [6]] } :=
  ⟨rfl, verifyProof_is_pure_boolean_fold (fun l => l.foldl (· + ·) 1)
    { root := 99, leaf := 2, pathIndices := [1, 0], siblings := [[5], [6]] } rfl⟩

/-! ## C7: member coercion in the Group API -/

/-- C7 counterexample: with stored bigint leaves `[123n, 456n]`,
`Group.indexOf` called with the number `456` returns `-1` while the bigint
`456n` returns `1` — the two calls do not behave identically, because
`indexOf` delegates without `BigInt` coercion and `===` is type-sensitive. -/
theorem group_indexOf_number_vs_bigint_counterexample :
    leavesIndexOf [JSVal.big 123, JSVal.big 456] (JSVal.num 456) = -1 ∧
    leavesIndexOf [JSVal.big 123, JSVal.big 456] (JSVal.big 456) = 1 ∧
    leavesIndexOf [JSVal.big 123, JSVal.big 456] (JSVal.num 456) ≠
      leavesIndexOf [JSVal.big 123, JSVal.big 456] (JSVal.big 456) := by
  refine ⟨?_, ?_, ?_⟩ <;> decide

theorem leaves_findIdx_big_none (v : Nat) :
    ∀ leaves : List Nat,
      (leaves.map JSVal.big).findIdx? (fun x => jsStrictEq x (JSVal.num v)) = none := by
  intro leaves
  induction leaves with
  | nil => rfl
  | cons a rest ih => simp [List.findIdx?, jsStrictEq, ih]

theorem leaves_findIdx_big_str_none (s : String) :
    ∀ leaves : List Nat,
      (leaves.map JSVal.big).findIdx? (fun x => jsStrictEq x (JSVal.str s)) = none := by
  intro leaves
  induction leaves with
  | nil => rfl
  | cons a rest ih => simp [List.findIdx?, jsStrictEq, ih]

theorem leaves_findIdx_big_big (v : Nat) (leaves : List Nat) :
    ∀ i, (leaves.map JSVal.big).findIdx? (fun x => jsStrictEq x (JSVal.big v)) i =
        leaves.findIdx? (fun x => x == v) i := by
  induction leaves with
  | nil => intro i; rfl
  | cons a rest ih =>
    intro i
    have hEq : jsStrictEq (JSVal.big a) (JSVal.big v) = (a == v) := rfl
    by_cases h : (a == v)
    · simp [List.findIdx?_cons, hEq, h]
    · simp only [List.map_cons, List.findIdx?_cons, hEq, if_neg h]
      exact ih (i + 1)

/-- C7 amended: `addMember` coerces the member with `BigInt` before the tree
insert; `indexOf` and `updateMember` delegate the member value uncoerced
under the tree's strict (type-sensitive) equality, so an `indexOf` call with
a number or numeric string that is value-equal to a stored bigint member
returns `-1` instead of behaving like the bigint call; a bigint argument is
looked up by value; `removeMember` takes only an index. -/
theorem group_member_coercion_amended (leaves : List Nat) (v : Nat) (s : String) :
    leavesAddMember (leaves.map JSVal.big) (JSVal.num v) =
      leaves.map JSVal.big ++ [JSVal.big v] ∧
    leavesAddMember (leaves.map JSVal.big) (JSVal.str s) =
      leaves.map JSVal.big ++ [JSVal.big (jsBigIntFromString s)] ∧
    leavesIndexOf (leaves.map JSVal.big) (JSVal.num v) = -1 ∧
    leavesIndexOf (leaves.map JSVal.big) (JSVal.str s) = -1 ∧
    leavesIndexOf (leaves.map JSVal.big) (JSVal.big v) = indexOfLeaf v [leaves] ∧
    (∀ i m, leavesUpdateMember (leaves.map JSVal.big) i m = (leaves.map JSVal.big).set i m) := by
  refine ⟨rfl, rfl, ?_, ?_, ?_, fun _ _ => rfl⟩
  · unfold leavesIndexOf
    rw [leaves_findIdx_big_none v leaves]
  · unfold leavesIndexOf
    rw [leaves_findIdx_big_str_none s leaves]
  · unfold leavesIndexOf indexOfLeaf
    rw [leaves_findIdx_big_big v leaves 0]
    rfl

/-! ## C4: the seeded Identity construction -/

/-- The claim's formula for the seeded construction: `h` the SHA-512 hex
digest left-padded to 128 characters, `nullifier = int(h[0:64], 16) >> 3`,
`trapdoor = int(h[64:128], 16) >> 3` (slices written as such), secret and
commitment derived as in all modes. -/
def specIdentityFromSeed (sha512hex : String → String) (p1 : Nat → Nat)
    (p2 : Nat → Nat → Nat) (seed : String) : IdentityT :=
  let h := padStartZeros (sha512hex seed) 128
  { nullifier := hexStrToNat (strTake h 64) >>> 3
    trapdoor := hexStrToNat (strDrop (strTake h 128) 64) >>> 3
    secret := p2 (hexStrToNat (strTake h 64) >>> 3) (hexStrToNat (strDrop (strTake h 128) 64) >>> 3)
    commitment := p1 (p2 (hexStrToNat (strTake h 64) >>> 3)
      (hexStrToNat (strDrop (strTake h 128) 64) >>> 3)) }

/-- C4: for any (external, pure) SHA-512 and Poseidon functions and any seed
whose digest is the usual 128 hex characters, the seeded `Identity`
construction computes exactly the claim's formula
(`nullifier = int(h[0:64],16) >> 3`, `trapdoor = int(h[64:128],16) >> 3`,
`secret = Poseidon2(nullifier, trapdoor)`, `commitment = Poseidon1(secret)`),
and reconstructions from the same seed are bit-identical. -/
theorem identityFromSeed_spec (sha512hex : String → String) (p1 : Nat → Nat)
    (p2 : Nat → Nat → Nat) (seed : String)
    (hlen : (sha512hex seed).length = 128) :
    identityFromSeed sha512hex p1 p2 seed = specIdentityFromSeed sha512hex p1 p2 seed ∧
    identityFromSeed sha512hex p1 p2 seed = identityFromSeed sha512hex p1 p2 seed := by
  refine ⟨?_, rfl⟩
  unfold identityFromSeed specIdentityFromSeed mkIdentityParts
  have hpad : padStartZeros (sha512hex seed) 128 = sha512hex seed := by
    unfold padStartZeros
    rw [hlen]
    simp
  have htake : strTake (sha512hex seed) 128 = sha512hex seed := by
    unfold strTake
    have hdlen : (sha512hex seed).data.length = 128 := hlen
    rw [List.take_of_length_le (by omega)]
  simp only [hpad, htake]

/-- Witness for the C4 theorem on a concrete digest function. -/
theorem identityFromSeed_spec_witness :
    ((fun (_ : String) => String.mk (List.replicate 128 'a')) "seed").length = 128 ∧
    (identityFromSeed (fun _ => String.mk (List.replicate 128 'a')) (· + 1) (· + ·) "seed" =
      specIdentityFromSeed (fun _ => String.mk (List.replicate 128 'a')) (· + 1) (· + ·) "seed" ∧
    identityFromSeed (fun _ => String.mk (List.replicate 128 'a')) (· + 1) (· + ·) "seed" =
      identityFromSeed (fun _ => String.mk (List.replicate 128 'a')) (· + 1) (· + ·) "seed") :=
  ⟨by simp [String.length], identityFromSeed_spec _ _ _ "seed" (by simp [String.length])⟩

/-! ## C5: Identity serialization round-trip -/

theorem hexCharVal_hexDigitChar : ∀ m, m < 16 → hexCharVal (hexDigitChar m) = m := by
  decide

theorem natToHexAux_parse (n : Nat) : ∀ (acc : List Char) (v : Nat),
    ∃ e, 1 ≤ e ∧ (natToHexAux n acc).foldl (fun a c => 16 * a + hexCharVal c) v =
      acc.foldl (fun a c => 16 * a + hexCharVal c) (16 ^ e * v + n) := by
  induction n using Nat.strong_induction_on with
  | _ n ih =>
    intro acc v
    by_cases h : n < 16
    · refine ⟨1, le_refl 1, ?_⟩
      rw [natToHexAux, dif_pos h]
      simp [List.foldl, hexCharVal_hexDigitChar n h]
    · have hdiv : n / 16 < n := Nat.div_lt_self (by omega) (by norm_num)
      obtain ⟨e, he, heq⟩ := ih (n / 16) hdiv (hexDigitChar (n % 16) :: acc) v
      refine ⟨e + 1, by omega, ?_⟩
      rw [natToHexAux, dif_neg h, heq]
      simp only [List.foldl]
      congr 1
      rw [hexCharVal_hexDigitChar (n % 16) (Nat.mod_lt _ (by norm_num))]
      have hp : 16 ^ (e + 1) * v = 16 * (16 ^ e * v) := by ring
      rw [hp]
      generalize (16 ^ e * v) = M
      omega

theorem hexStrToNat_natToHex (n : Nat) : hexStrToNat (natToHex n) = n := by
  unfold hexStrToNat natToHex
  obtain ⟨e, _, heq⟩ := natToHexAux_parse n [] 0
  simpa using heq

theorem jsBigIntFromString_hex_roundTrip (n : Nat) :
    jsBigIntFromString ("0x" ++ natToHex n) = n := by
  have hdata : ("0x" ++ natToHex n).data = '0' :: 'x' :: (natToHexAux n []) := by
    rw [String.data_append]
    rfl
  unfold jsBigIntFromString strDrop
  rw [hdata]
  simp only [List.take_succ_cons, List.take_zero, List.drop_succ_cons, List.drop_zero]
  simp only [if_true, if_pos]
  exact hexStrToNat_natToHex n

/-- C5: reconstructing an `Identity` from the serialized array produced by
`toString()` (`["0x" + trapdoor.toString(16), "0x" + nullifier.toString(16)]`)
reproduces the same `(trapdoor, nullifier)` and hence the same derived
secret and commitment. -/
theorem identity_toString_roundTrip (p1 : Nat → Nat) (p2 : Nat → Nat → Nat)
    (trapdoor nullifier : Nat) :
    identityFromSerialized p1 p2
        (identityToStringArr (mkIdentityParts p1 p2 trapdoor nullifier)) =
      mkIdentityParts p1 p2 trapdoor nullifier := by
  unfold identityFromSerialized identityToStringArr
  simp only [List.getD_cons_zero, List.getD_cons_succ]
  rw [jsBigIntFromString_hex_roundTrip, jsBigIntFromString_hex_roundTrip]
  rfl

/-! ## C1: an unregistered rate commitment makes genProof fail -/

theorem findIdx_beq_none_of_not_mem (a : Nat) (l : List Nat) :
    a ∉ l → ∀ i, l.findIdx? (fun x => x == a) i = none := by
  induction l with
  | nil => intro _ i; rfl
  | cons b rest ih =>
    intro h i
    have hb : (b == a) = false := by
      simp only [beq_eq_false_iff_ne, ne_eq]
      intro hba
      exact h (hba ▸ List.mem_cons_self b rest)
    rw [List.findIdx?_cons, hb]
    simp only [Bool.false_eq_true, if_false]
    exact ih (fun hm => h (List.mem_cons_of_mem b hm)) (i + 1)

theorem buildLevels_getD_zero (hashF : List Nat → Nat) (zs cur : List Nat) :
    (buildLevels hashF zs cur).getD 0 [] = cur := by
  cases zs <;> rfl

theorem mkTree_leaves (hashF : List Nat → Nat) (depth z : Nat) (leaves : List Nat)
    (t : Tree) (h1 : 1 ≤ depth) (hok : mkTree hashF depth z leaves = .ok t) :
    t.nodes.getD 0 [] = if 0 < leaves.length then leaves else [] := by
  unfold mkTree at hok
  by_cases hd : depth < 1 ∨ 32 < depth
  · rw [if_pos hd] at hok; cases hok
  · rw [if_neg hd] at hok
    by_cases hc : 2 ^ depth < leaves.length
    · rw [if_pos hc] at hok; cases hok
    · rw [if_neg hc] at hok
      cases hok
      by_cases hne : 0 < leaves.length
      · simp only [hne, if_true, if_pos hne]
        exact buildLevels_getD_zero hashF _ leaves
      · simp only [hne, if_false, if_neg hne]
        rw [List.getD_eq_getElem _ _ (by simp)]
        rw [List.getElem_append_left (by simpa using h1)]
        simp [List.getElem_replicate]

/-- C1: if the rate commitment `Poseidon2(identity.commitment, messageLimit)`
does not occur among the room's identity commitments, the synchronous part of
`genProof` fails with the lookup error (raised by `createProof` on the `-1`
of the failed `indexOf`) before any proof input is assembled; in particular
no `ProofInputs` value with `pathIndices`/`siblings` is ever produced. -/
theorem genProof_unregistered_rate_commitment_errors
    (p1 : Nat → Nat) (p2 : Nat → Nat → Nat) (zeroDerive : Nat → Nat)
    (str2BigIntF : String → Nat) (epochNow roomId : Nat) (members : List Nat)
    (message : String) (identitySecret identityCommitment messageId messageLimit : Nat)
    (hmem : p2 identityCommitment messageLimit ∉ members)
    (hcap : members.length ≤ 2 ^ 20) :
    genProofInputs p1 p2 zeroDerive str2BigIntF epochNow roomId members message
        identitySecret identityCommitment messageId messageLimit =
      .error "The leaf does not exist in this tree" := by
  have hgroup : ∃ t, mkGroup (pairHash p2) zeroDerive roomId 20 members =
      .ok { id := roomId, tree := t } ∧ t.nodes.getD 0 [] =
        (if 0 < members.length then members else []) := by
    unfold mkGroup mkTree
    rw [if_neg (by omega), if_neg (by omega), if_neg (by omega)]
    refine ⟨_, rfl, ?_⟩
    by_cases hne : 0 < members.length
    · simp only [hne, if_true, if_pos hne]
      exact buildLevels_getD_zero (pairHash p2) _ members
    · simp only [hne, if_false, if_neg hne]
      rw [List.getD_eq_getElem _ _ (by simp)]
      rw [List.getElem_append_left (by simp)]
      simp [List.getElem_replicate]
  obtain ⟨t, hok, hleaves⟩ := hgroup
  have hidx : Group.indexOf { id := roomId, tree := t }
      (p2 identityCommitment messageLimit) = -1 := by
    unfold Group.indexOf indexOfLeaf
    rw [hleaves]
    by_cases hne : 0 < members.length
    · rw [if_pos hne, findIdx_beq_none_of_not_mem _ _ hmem 0]
    · rw [if_neg hne]
      rfl
  have hmp : Group.generateMerkleProof { id := roomId, tree := t }
      (Group.indexOf { id := roomId, tree := t } (p2 identityCommitment messageLimit)) =
      .error "The leaf does not exist in this tree" := by
    rw [hidx]
    unfold Group.generateMerkleProof Tree.createProof createProofFn
    rw [if_pos (Or.inl (by norm_num))]
    rfl
  unfold genProofInputs
  rw [hok]
  simp only [hmp]

/-- Witness for the C1 theorem on concrete data. -/
theorem genProof_unregistered_rate_commitment_errors_witness :
    ((fun a b => a + 2 * b + 1) 5 1 ∉ ([123, 456] : List Nat) ∧
      ([123, 456] : List Nat).length ≤ 2 ^ 20) ∧
    genProofInputs (· + 1) (fun a b => a + 2 * b + 1) (· + 3) (fun _ => 11) 17 123
        [123, 456] "hello world" 9 5 0 1 =
      .error "The leaf does not exist in this tree" :=
  ⟨⟨by decide, by norm_num⟩,
    genProof_unregistered_rate_commitment_errors (· + 1) (fun a b => a + 2 * b + 1)
      (· + 3) (fun _ => 11) 17 123 [123, 456] "hello world" 9 5 0 1
      (by decide) (by norm_num)⟩

/-! ## Canonical level contents

`canonLevel hashF z ls l` is the node list the bulk constructor produces at
level `l` for leaves `ls`; the lemmas below show the incremental operations
preserve exactly these contents. -/

def canonLevel (hashF : List Nat → Nat) (z : Nat) (ls : List Nat) : Nat → List Nat
  | 0 => ls
  | l + 1 => buildLevelUp hashF (zeroIter hashF z l) (canonLevel hashF z ls l)

theorem canonLevel_nil (hashF : List Nat → Nat) (z : Nat) :
    ∀ l, canonLevel hashF z [] l = [] := by
  intro l
  induction l with
  | zero => rfl
  | succ l ih => simp [canonLevel, ih, buildLevelUp]

theorem buildLevelUp_length (hashF : List Nat → Nat) (zl : Nat) (cur : List Nat) :
    (buildLevelUp hashF zl cur).length = (cur.length + 1) / 2 := by
  simp [buildLevelUp]

theorem buildLevelUp_getD (hashF : List Nat → Nat) (zl : Nat) (cur : List Nat)
    (j d : Nat) (h : j < (cur.length + 1) / 2) :
    (buildLevelUp hashF zl cur).getD j d =
      hashF [cur.getD (2 * j) zl, cur.getD (2 * j + 1) zl] := by
  unfold buildLevelUp
  rw [mapRange_getD, if_pos h]

theorem getD_default_irrel {α : Type} (l : List α) (i : Nat) (d1 d2 : α)
    (h : i < l.length) : l.getD i d1 = l.getD i d2 := by
  rw [List.getD_eq_getElem l d1 h, List.getD_eq_getElem l d2 h]

theorem getD_set_self' {α : Type} (d : α) (N : List α) (i : Nat) (v : α)
    (h : i < N.length) : (N.set i v).getD i d = v := by
  rw [List.getD_eq_getElem _ d (by simpa using h)]
  simp [List.getElem_set_self]

theorem getD_set_ne' {α : Type} (d : α) (N : List α) (i j : Nat) (v : α)
    (h : j ≠ i) : (N.set i v).getD j d = N.getD j d := by
  rcases Nat.lt_or_ge j N.length with hj | hj
  · rw [List.getD_eq_getElem _ d (by simpa using hj), List.getD_eq_getElem _ d hj]
    exact List.getElem_set_ne (Ne.symm h) _
  · rw [List.getD_eq_default _ d (by simpa using hj), List.getD_eq_default _ d hj]

theorem canonLevel_length_append (hashF : List Nat → Nat) (z : Nat)
    (ls : List Nat) (x : Nat) :
    ∀ l, (canonLevel hashF z (ls ++ [x]) l).length = ls.length / 2 ^ l + 1 := by
  intro l
  induction l with
  | zero => simp [canonLevel]
  | succ l ih =>
    show (buildLevelUp _ _ _).length = _
    rw [buildLevelUp_length, ih]
    rw [pow_succ, ← Nat.div_div_eq_div_mul]
    omega

theorem canonLevel_length_bounds (hashF : List Nat → Nat) (z : Nat) (ls : List Nat) :
    ∀ l, ls.length / 2 ^ l ≤ (canonLevel hashF z ls l).length ∧
      (canonLevel hashF z ls l).length ≤ ls.length / 2 ^ l + 1 := by
  intro l
  induction l with
  | zero => simp [canonLevel]
  | succ l ih =>
    show _ ≤ (buildLevelUp _ _ _).length ∧ (buildLevelUp _ _ _).length ≤ _
    rw [buildLevelUp_length]
    rw [pow_succ, ← Nat.div_div_eq_div_mul]
    omega

theorem canonLevel_length_pos (hashF : List Nat → Nat) (z : Nat) (ls : List Nat)
    (hls : 0 < ls.length) : ∀ l, 0 < (canonLevel hashF z ls l).length := by
  intro l
  induction l with
  | zero => simpa [canonLevel] using hls
  | succ l ih =>
    show 0 < (buildLevelUp _ _ _).length
    rw [buildLevelUp_length]
    omega

theorem canonLevel_agree (hashF : List Nat → Nat) (z : Nat) (ls : List Nat) (x : Nat) :
    ∀ l j d, j < ls.length / 2 ^ l →
      (canonLevel hashF z (ls ++ [x]) l).getD j d = (canonLevel hashF z ls l).getD j d := by
  intro l
  induction l with
  | zero =>
    intro j d hj
    simp only [pow_zero, Nat.div_one] at hj
    show (ls ++ [x]).getD j d = ls.getD j d
    rw [List.getD_eq_getElem _ d (by simp; omega), List.getD_eq_getElem _ d hj]
    exact List.getElem_append_left hj
  | succ l ih =>
    intro j d hj
    have hsplit : ls.length / 2 ^ (l + 1) = ls.length / 2 ^ l / 2 := by
      rw [pow_succ, ← Nat.div_div_eq_div_mul]
    rw [hsplit] at hj
    have hbounds := canonLevel_length_bounds hashF z ls l
    have hlapp := canonLevel_length_append hashF z ls x l
    show (buildLevelUp _ _ _).getD j d = (buildLevelUp _ _ _).getD j d
    rw [buildLevelUp_getD _ _ _ _ _ (by rw [hlapp]; omega),
      buildLevelUp_getD _ _ _ _ _ (by omega)]
    rw [ih (2 * j) _ (by omega), ih (2 * j + 1) _ (by omega)]

theorem canonLevel_set (hashF : List Nat → Nat) (z : Nat) (ls : List Nat) (x : Nat)
    (l : Nat) :
    listSet (canonLevel hashF z ls l) (ls.length / 2 ^ l)
        ((canonLevel hashF z (ls ++ [x]) l).getD (ls.length / 2 ^ l) 0) =
      canonLevel hashF z (ls ++ [x]) l := by
  have hbounds := canonLevel_length_bounds hashF z ls l
  have hlapp := canonLevel_length_append hashF z ls x l
  apply eq_of_getD 0
  · rw [listSet_length, hlapp]
    rcases Nat.lt_or_ge (ls.length / 2 ^ l) (canonLevel hashF z ls l).length with h | h
    · rw [if_pos h]; omega
    · rw [if_neg (Nat.not_lt.mpr h)]; omega
  · intro j hj
    rw [listSet_length] at hj
    have hj' : j < ls.length / 2 ^ l + 1 := by
      rcases Nat.lt_or_ge (ls.length / 2 ^ l) (canonLevel hashF z ls l).length with h | h
      · rw [if_pos h] at hj; omega
      · rw [if_neg (Nat.not_lt.mpr h)] at hj; omega
    rcases Nat.lt_or_ge j (ls.length / 2 ^ l) with hlt | hge
    · rw [listSet_getD_ne _ _ _ _ _ (by omega) (by omega)]
      exact (canonLevel_agree hashF z ls x l j 0 hlt).symm
    · have : j = ls.length / 2 ^ l := by omega
      subst this
      rw [listSet_getD_self _ _ _ _ (by omega)]

theorem canonLevel_append_succ_getD (hashF : List Nat → Nat) (z : Nat)
    (ls : List Nat) (x : Nat) (l : Nat) :
    (canonLevel hashF z (ls ++ [x]) (l + 1)).getD (ls.length / 2 ^ (l + 1)) 0 =
      hashF [(canonLevel hashF z (ls ++ [x]) l).getD (2 * (ls.length / 2 ^ l / 2))
              (zeroIter hashF z l),
             (canonLevel hashF z (ls ++ [x]) l).getD (2 * (ls.length / 2 ^ l / 2) + 1)
              (zeroIter hashF z l)] := by
  have hsplit : ls.length / 2 ^ (l + 1) = ls.length / 2 ^ l / 2 := by
    rw [pow_succ, Nat.div_div_eq_div_mul]
  have hlapp := canonLevel_length_append hashF z ls x l
  show (buildLevelUp _ _ _).getD _ 0 = _
  rw [hsplit, buildLevelUp_getD _ _ _ _ _ (by rw [hlapp]; omega)]

/-- The upward loop of `insert`/`update`, run over levels `[l, …, l+n-1]` on
node levels that are canonical for `ls` below `l` already rewritten for
`ls ++ [x]`, writes exactly the canonical contents for `ls ++ [x]` and
carries out the canonical node of each level along the insertion path. -/
theorem upLoop_canon (hashF : List Nat → Nat) (z : Nat) (d : Nat) (ls : List Nat)
    (x : Nat) :
    ∀ (n l : Nat) (N : List (List Nat)),
      l + n ≤ d → N.length = d + 1 →
      (∀ j, j < d → N.getD j [] =
        if j < l then canonLevel hashF z (ls ++ [x]) j else canonLevel hashF z ls j) →
      (upLoop hashF (zeroesList hashF z d) (List.range' l n) N
          ((canonLevel hashF z (ls ++ [x]) l).getD (ls.length / 2 ^ l) 0)
          (ls.length / 2 ^ l)).2 =
        (canonLevel hashF z (ls ++ [x]) (l + n)).getD (ls.length / 2 ^ (l + n)) 0 ∧
      (upLoop hashF (zeroesList hashF z d) (List.range' l n) N
          ((canonLevel hashF z (ls ++ [x]) l).getD (ls.length / 2 ^ l) 0)
          (ls.length / 2 ^ l)).1.length = d + 1 ∧
      (∀ j, j < d →
        (upLoop hashF (zeroesList hashF z d) (List.range' l n) N
          ((canonLevel hashF z (ls ++ [x]) l).getD (ls.length / 2 ^ l) 0)
          (ls.length / 2 ^ l)).1.getD j [] =
        if j < l + n then canonLevel hashF z (ls ++ [x]) j else canonLevel hashF z ls j) ∧
      (upLoop hashF (zeroesList hashF z d) (List.range' l n) N
          ((canonLevel hashF z (ls ++ [x]) l).getD (ls.length / 2 ^ l) 0)
          (ls.length / 2 ^ l)).1.getD d [] = N.getD d [] := by
  intro n
  induction n with
  | zero =>
    intro l N _ hlen hN
    exact ⟨rfl, hlen, fun j hj => hN j hj, rfl⟩
  | succ n ih =>
    intro l N hln hlen hN
    have hld : l < d := by omega
    rw [List.range'_succ]
    simp only [upLoop]
    have hcur : N.getD l [] = canonLevel hashF z ls l := by
      rw [hN l hld, if_neg (lt_irrefl l)]
    rw [hcur, canonLevel_set hashF z ls x l]
    have hls2 : ls.length / 2 ^ l - ls.length / 2 ^ l % 2 = 2 * (ls.length / 2 ^ l / 2) := by
      omega
    rw [hls2]
    have hchild : ∀ i, (if i < (canonLevel hashF z (ls ++ [x]) l).length
        then (canonLevel hashF z (ls ++ [x]) l).getD i 0
        else (zeroesList hashF z d).getD l 0) =
        (canonLevel hashF z (ls ++ [x]) l).getD i (zeroIter hashF z l) := by
      intro i
      by_cases hi : i < (canonLevel hashF z (ls ++ [x]) l).length
      · rw [if_pos hi]
        exact getD_default_irrel _ _ _ _ hi
      · rw [if_neg hi, zeroesList_getD hashF z d l hld,
          List.getD_eq_default _ _ (Nat.le_of_not_lt hi)]
    rw [hchild, hchild, ← canonLevel_append_succ_getD hashF z ls x l]
    have hidx2 : ls.length / 2 ^ l / 2 = ls.length / 2 ^ (l + 1) := by
      rw [pow_succ, Nat.div_div_eq_div_mul]
    rw [hidx2]
    have hN' : ∀ j, j < d →
        (N.set l (canonLevel hashF z (ls ++ [x]) l)).getD j [] =
        if j < l + 1 then canonLevel hashF z (ls ++ [x]) j
        else canonLevel hashF z ls j := by
      intro j hj
      by_cases hjl : j = l
      · subst hjl
        rw [getD_set_self' _ _ _ _ (by omega), if_pos (by omega)]
      · rw [getD_set_ne' _ _ _ _ _ hjl, hN j hj]
        by_cases hlt : j < l
        · rw [if_pos hlt, if_pos (by omega)]
        · rw [if_neg hlt, if_neg (by omega)]
    obtain ⟨ha, hb, hc, hd2⟩ := ih (l + 1) (N.set l (canonLevel hashF z (ls ++ [x]) l))
      (by omega) (by simpa using hlen) hN'
    have hadd : l + (n + 1) = (l + 1) + n := by omega
    refine ⟨?_, hb, ?_, ?_⟩
    · rw [hadd]
      exact ha
    · intro j hj
      rw [hadd]
      exact hc j hj
    · rw [hd2, getD_set_ne' _ _ _ _ _ (by omega)]

/-! ## Canonical whole-tree states -/

theorem zeroIter_shift (hashF : List Nat → Nat) (z : Nat) :
    ∀ n, zeroIter hashF (hashF [z, z]) n = zeroIter hashF z (n + 1) := by
  intro n
  induction n with
  | zero => rfl
  | succ n ih => simp [zeroIter, ih]

theorem canonLevel_shift (hashF : List Nat → Nat) (z : Nat) (ls : List Nat) :
    ∀ l, canonLevel hashF z ls (l + 1) =
      canonLevel hashF (hashF [z, z]) (buildLevelUp hashF z ls) l := by
  intro l
  induction l with
  | zero => rfl
  | succ l ih =>
    show buildLevelUp hashF (zeroIter hashF z (l + 1)) (canonLevel hashF z ls (l + 1)) = _
    rw [ih, ← zeroIter_shift]
    rfl

theorem buildLevels_canon (hashF : List Nat → Nat) :
    ∀ (n : Nat) (z : Nat) (ls : List Nat),
      buildLevels hashF ((List.range n).map (zeroIter hashF z)) ls =
        (List.range (n + 1)).map (canonLevel hashF z ls) := by
  intro n
  induction n with
  | zero => intro z ls; rfl
  | succ n ih =>
    intro z ls
    have hshift : (List.range (n + 1)).map (zeroIter hashF z) =
        z :: (List.range n).map (zeroIter hashF (hashF [z, z])) := by
      rw [List.range_succ_eq_map, List.map_cons, List.map_map]
      refine congrArg (zeroIter hashF z 0 :: ·) ?_
      exact List.map_congr_left fun a _ => (zeroIter_shift hashF z a).symm
    rw [hshift]
    show ls :: buildLevels hashF ((List.range n).map (zeroIter hashF (hashF [z, z])))
        (buildLevelUp hashF z ls) = _
    rw [ih (hashF [z, z]) (buildLevelUp hashF z ls)]
    rw [List.range_succ_eq_map (n + 1), List.map_cons, List.map_map]
    refine congrArg (canonLevel hashF z ls 0 :: ·) ?_
    exact List.map_congr_left fun a _ => (canonLevel_shift hashF z ls a).symm

/-- The node levels the constructor produces for leaves `ls`: the canonical
contents per level, with the last entry the singleton root (the continued
zero chain when `ls` is empty). -/
def canonNodes (hashF : List Nat → Nat) (z : Nat) (d : Nat) (ls : List Nat) :
    List (List Nat) :=
  (List.range d).map (canonLevel hashF z ls) ++
    [if ls.length = 0 then [zeroIter hashF z d] else canonLevel hashF z ls d]

/-- The canonical tree state for leaves `ls`. -/
def canonTree (hashF : List Nat → Nat) (z : Nat) (d : Nat) (ls : List Nat) : Tree :=
  { depth := d, zeroes := zeroesList hashF z d, nodes := canonNodes hashF z d ls }

theorem canonNodes_length (hashF : List Nat → Nat) (z : Nat) (d : Nat) (ls : List Nat) :
    (canonNodes hashF z d ls).length = d + 1 := by
  simp [canonNodes]

theorem canonNodes_getD_lt (hashF : List Nat → Nat) (z : Nat) (d : Nat) (ls : List Nat)
    (j : Nat) (hj : j < d) :
    (canonNodes hashF z d ls).getD j [] = canonLevel hashF z ls j := by
  unfold canonNodes
  rw [List.getD_eq_getElem _ _ (by simp; omega),
    List.getElem_append_left (by simpa using hj)]
  simp

theorem canonNodes_getD_last (hashF : List Nat → Nat) (z : Nat) (d : Nat) (ls : List Nat) :
    (canonNodes hashF z d ls).getD d [] =
      if ls.length = 0 then [zeroIter hashF z d] else canonLevel hashF z ls d := by
  unfold canonNodes
  rw [List.getD_eq_getElem _ _ (by simp), List.getElem_append_right (by simp)]
  simp

theorem mkTree_canon (hashF : List Nat → Nat) (z d : Nat) (ls : List Nat)
    (h1 : 1 ≤ d) (h2 : d ≤ 32) (h3 : ls.length ≤ 2 ^ d) :
    mkTree hashF d z ls = .ok (canonTree hashF z d ls) := by
  unfold mkTree canonTree
  rw [if_neg (by omega), if_neg (by omega)]
  refine congrArg Except.ok ?_
  refine congrArg (Tree.mk d (zeroesList hashF z d)) ?_
  unfold canonNodes
  by_cases hne : 0 < ls.length
  · rw [if_pos hne, if_neg (by omega)]
    unfold zeroesList
    rw [buildLevels_canon hashF d z ls, List.range_succ, List.map_append]
    rfl
  · rw [if_neg hne, if_pos (by omega)]
    have hls : ls = [] := List.length_eq_zero.mp (by omega)
    subst hls
    refine congrArg (· ++ [[zeroIter hashF z d]]) ?_
    have : (List.range d).map (canonLevel hashF z []) =
        (List.range d).map (fun _ => ([] : List Nat)) :=
      List.map_congr_left fun a _ => canonLevel_nil hashF z a
    rw [this]
    show List.replicate d ([] : List Nat) = (List.range d).map (Function.const Nat ([] : List Nat))
    rw [List.map_const, List.length_range]

/-- Inserting one leaf into the canonical tree of `ls` yields the canonical
tree of `ls ++ [x]`. -/
theorem insert_canon (hashF : List Nat → Nat) (z d : Nat) (ls : List Nat) (x : Nat)
    (h1 : 1 ≤ d) (hcap : ls.length < 2 ^ d) :
    Tree.insert hashF (canonTree hashF z d ls) x =
      .ok (canonTree hashF z d (ls ++ [x])) := by
  unfold Tree.insert insertLeaf canonTree
  have h0 : (canonNodes hashF z d ls).getD 0 [] = ls := by
    rw [canonNodes_getD_lt hashF z d ls 0 (by omega)]
    rfl
  simp only [h0]
  rw [if_neg (by omega)]
  have hx : ((canonLevel hashF z (ls ++ [x]) 0).getD (ls.length / 2 ^ 0) 0) = x := by
    show (ls ++ [x]).getD (ls.length / 1) 0 = x
    rw [Nat.div_one, List.getD_eq_getElem _ _ (by simp)]
    exact List.getElem_concat_length ls x ls.length rfl _
  have hNhyp : ∀ j, j < d → (canonNodes hashF z d ls).getD j [] =
      if j < 0 then canonLevel hashF z (ls ++ [x]) j else canonLevel hashF z ls j := by
    intro j hj
    rw [canonNodes_getD_lt hashF z d ls j hj, if_neg (by omega)]
  obtain ⟨ha, hb, hc, hd2⟩ := upLoop_canon hashF z d ls x d 0 (canonNodes hashF z d ls)
    (by omega) (canonNodes_length hashF z d ls) hNhyp
  rw [List.range_eq_range' d] at *
  have hidx0 : ls.length / 2 ^ 0 = ls.length := by simp
  rw [hidx0] at ha hb hc hd2 hx
  rw [hx] at ha hb hc hd2
  set R := upLoop hashF (zeroesList hashF z d) (List.range' 0 d)
    (canonNodes hashF z d ls) x ls.length with hR
  show Except.map _ (Except.ok R) = _
  refine congrArg Except.ok ?_
  refine congrArg (Tree.mk d (zeroesList hashF z d)) ?_
  have hzadd : 0 + d = d := by omega
  rw [hzadd] at ha hc
  have hroot : R.2 = (canonLevel hashF z (ls ++ [x]) d).getD 0 0 := by
    rw [ha, Nat.div_eq_of_lt hcap]
  have hlast : (canonLevel hashF z (ls ++ [x]) d) = [R.2] := by
    have hlapp := canonLevel_length_append hashF z ls x d
    rw [Nat.div_eq_of_lt hcap] at hlapp
    obtain ⟨y, hy⟩ := List.length_eq_one.mp hlapp
    rw [hy]
    rw [hy] at hroot
    simp at hroot
    rw [hroot]
  apply eq_of_getD ([] : List Nat)
  · rw [List.length_set, hb, canonNodes_length]
  · intro j hj
    rw [List.length_set, hb] at hj
    by_cases hjd : j = d
    · rw [hjd]
      rw [getD_set_self' _ _ _ _ (by omega), canonNodes_getD_last, if_neg (by simp),
        hd2, canonNodes_getD_last]
      rw [hlast]
      by_cases hk : ls.length = 0
      · rw [if_pos hk]
        rfl
      · rw [if_neg hk]
        have hpos := canonLevel_length_pos hashF z ls (by omega) d
        have hbounds := canonLevel_length_bounds hashF z ls d
        rw [Nat.div_eq_of_lt hcap] at hbounds
        obtain ⟨y, hy⟩ := List.length_eq_one.mp
          (show (canonLevel hashF z ls d).length = 1 by omega)
        rw [hy]
        rfl
    · rw [getD_set_ne' _ _ _ _ _ hjd, hc j (by omega), if_pos (by omega),
        canonNodes_getD_lt hashF z d (ls ++ [x]) j (by omega)]

/-- Sequential insertion: fold `insert` over the leaves. -/
def insertAll (hashF : List Nat → Nat) (t : Tree) (ls : List Nat) :
    Except String Tree :=
  ls.foldlM (fun acc leaf => Tree.insert hashF acc leaf) t

theorem insertAll_canon (hashF : List Nat → Nat) (z d : Nat) (h1 : 1 ≤ d) :
    ∀ (suf pre : List Nat), pre.length + suf.length ≤ 2 ^ d →
      insertAll hashF (canonTree hashF z d pre) suf =
        .ok (canonTree hashF z d (pre ++ suf)) := by
  intro suf
  induction suf with
  | nil =>
    intro pre _
    show (pure (canonTree hashF z d pre) : Except String Tree) =
      .ok (canonTree hashF z d (pre ++ []))
    rw [List.append_nil]
    rfl
  | cons x rest ih =>
    intro pre h
    show List.foldlM _ _ (x :: rest) = _
    rw [List.foldlM_cons, insert_canon hashF z d pre x h1 (by simp at h; omega)]
    show insertAll hashF (canonTree hashF z d (pre ++ [x])) rest = _
    rw [ih (pre ++ [x]) (by simp at h ⊢; omega)]
    refine congrArg Except.ok (congrArg (canonTree hashF z d) ?_)
    simp

/-- C2: for every hash function, depth in `[1,32]`, zero value and list of at
most `2^depth` leaves, the root of the bulk-constructed tree equals the root
obtained by constructing empty and inserting the same leaves in order. -/
theorem bulk_eq_sequential (hashF : List Nat → Nat) (depth z : Nat) (leaves : List Nat)
    (h1 : 1 ≤ depth) (h2 : depth ≤ 32) (h3 : leaves.length ≤ 2 ^ depth) :
    ∃ t0 tseq tbulk,
      mkTree hashF depth z [] = .ok t0 ∧
      insertAll hashF t0 leaves = .ok tseq ∧
      mkTree hashF depth z leaves = .ok tbulk ∧
      tbulk.root = tseq.root := by
  refine ⟨canonTree hashF z depth [], canonTree hashF z depth leaves,
    canonTree hashF z depth leaves, ?_, ?_, ?_, rfl⟩
  · exact mkTree_canon hashF z depth [] h1 h2 (by simp)
  · have h := insertAll_canon hashF z depth h1 leaves [] (by simpa using h3)
    simpa using h
  · exact mkTree_canon hashF z depth leaves h1 h2 h3

/-- Witness for the C2 theorem at depth 2 with three leaves. -/
theorem bulk_eq_sequential_witness :
    (1 ≤ 2 ∧ 2 ≤ 32 ∧ ([4, 5, 6] : List Nat).length ≤ 2 ^ 2) ∧
    ∃ t0 tseq tbulk,
      mkTree (fun l => l.foldl (· + ·) 1) 2 9 [] = .ok t0 ∧
      insertAll (fun l => l.foldl (· + ·) 1) t0 [4, 5, 6] = .ok tseq ∧
      mkTree (fun l => l.foldl (· + ·) 1) 2 9 [4, 5, 6] = .ok tbulk ∧
      tbulk.root = tseq.root :=
  ⟨⟨by omega, by omega, by decide⟩,
    bulk_eq_sequential (fun l => l.foldl (· + ·) 1) 2 9 [4, 5, 6]
      (by omega) (by omega) (by decide)⟩

/-! ## C3 and C9: createProof and its verification / collapse -/

theorem child_getD (hashF : List Nat → Nat) (z : Nat) (d l : Nat) (hld : l < d)
    (cur : List Nat) (i : Nat) :
    (if i < cur.length then cur.getD i 0 else (zeroesList hashF z d).getD l 0) =
      cur.getD i (zeroIter hashF z l) := by
  by_cases hi : i < cur.length
  · rw [if_pos hi]
    exact getD_default_irrel _ _ _ _ hi
  · rw [if_neg hi, zeroesList_getD hashF z d l hld,
      List.getD_eq_default _ _ (Nat.le_of_not_lt hi)]

/-- One unfolding of the `createProof` level loop. -/
theorem proofLoop_cons (zeroes : List Nat) (level : Nat) (rest : List Nat)
    (nodes : List (List Nat)) (index : Nat) :
    proofLoop zeroes (level :: rest) nodes index =
      ((index % 2) :: (proofLoop zeroes rest nodes (index / 2)).1,
       ((if index - index % 2 = index then [] else
          [if index - index % 2 < (nodes.getD level []).length
           then (nodes.getD level []).getD (index - index % 2) 0
           else zeroes.getD level 0]) ++
        (if index - index % 2 + 1 = index then [] else
          [if index - index % 2 + 1 < (nodes.getD level []).length
           then (nodes.getD level []).getD (index - index % 2 + 1) 0
           else zeroes.getD level 0])) ::
       (proofLoop zeroes rest nodes (index / 2)).2) := rfl

theorem proofLoop_snd_length (zeroes : List Nat) :
    ∀ (levels : List Nat) (nodes : List (List Nat)) (index : Nat),
      (proofLoop zeroes levels nodes index).2.length = levels.length := by
  intro levels
  induction levels with
  | nil => intro nodes index; rfl
  | cons level rest ih =>
    intro nodes index
    rw [proofLoop_cons]
    simp [ih nodes (index / 2)]

theorem proofLoop_sibs_singleton (zeroes : List Nat) :
    ∀ (levels : List Nat) (nodes : List (List Nat)) (index : Nat),
      ∀ s ∈ (proofLoop zeroes levels nodes index).2, s.length = 1 := by
  intro levels
  induction levels with
  | nil => intro nodes index s hs; cases hs
  | cons level rest ih =>
    intro nodes index s hs
    rw [proofLoop_cons] at hs
    rcases List.mem_cons.mp hs with hs | hs
    · subst hs
      rcases Nat.mod_two_eq_zero_or_one index with h | h
      · rw [if_pos (show index - index % 2 = index from by omega),
          if_neg (show ¬(index - index % 2 + 1 = index) from by omega)]
        rfl
      · rw [if_neg (show ¬(index - index % 2 = index) from by omega),
          if_pos (show index - index % 2 + 1 = index from by omega)]
        rfl
    · exact ih nodes (index / 2) s hs

/-- The verification fold of the proof produced by the level loop on the
canonical nodes of `ls ++ [x]`, started at the freshly inserted index,
reproduces the canonical node of each level along the path. -/
theorem proofLoop_verifyFold (hashF : List Nat → Nat) (z : Nat) (d : Nat)
    (ls : List Nat) (x : Nat) :
    ∀ (n l : Nat), l + n ≤ d →
      verifyFold hashF
        (proofLoop (zeroesList hashF z d) (List.range' l n)
          (canonNodes hashF z d (ls ++ [x])) (ls.length / 2 ^ l)).2
        (proofLoop (zeroesList hashF z d) (List.range' l n)
          (canonNodes hashF z d (ls ++ [x])) (ls.length / 2 ^ l)).1
        ((canonLevel hashF z (ls ++ [x]) l).getD (ls.length / 2 ^ l) 0) =
      (canonLevel hashF z (ls ++ [x]) (l + n)).getD (ls.length / 2 ^ (l + n)) 0 := by
  intro n
  induction n with
  | zero => intro l _; rfl
  | succ n ih =>
    intro l hln
    have hld : l < d := by omega
    rw [List.range'_succ, proofLoop_cons]
    simp only [verifyFold, List.tail_cons, List.headD_cons]
    rw [canonNodes_getD_lt hashF z d (ls ++ [x]) l hld]
    have hlapp := canonLevel_length_append hashF z ls x l
    have hplen : ls.length / 2 ^ l < (canonLevel hashF z (ls ++ [x]) l).length := by
      omega
    rw [child_getD hashF z d l hld, child_getD hashF z d l hld]
    have hnodeD := getD_default_irrel (canonLevel hashF z (ls ++ [x]) l)
      (ls.length / 2 ^ l) 0 (zeroIter hashF z l) hplen
    have hidx2 : ls.length / 2 ^ l / 2 = ls.length / 2 ^ (l + 1) := by
      rw [pow_succ, Nat.div_div_eq_div_mul]
    have hstep : hashF (spliceInsert
        ((if ls.length / 2 ^ l - ls.length / 2 ^ l % 2 = ls.length / 2 ^ l then [] else
          [(canonLevel hashF z (ls ++ [x]) l).getD
            (ls.length / 2 ^ l - ls.length / 2 ^ l % 2) (zeroIter hashF z l)]) ++
         (if ls.length / 2 ^ l - ls.length / 2 ^ l % 2 + 1 = ls.length / 2 ^ l then [] else
          [(canonLevel hashF z (ls ++ [x]) l).getD
            (ls.length / 2 ^ l - ls.length / 2 ^ l % 2 + 1) (zeroIter hashF z l)]))
        (ls.length / 2 ^ l % 2)
        ((canonLevel hashF z (ls ++ [x]) l).getD (ls.length / 2 ^ l) 0)) =
        (canonLevel hashF z (ls ++ [x]) (l + 1)).getD (ls.length / 2 ^ (l + 1)) 0 := by
      rw [canonLevel_append_succ_getD hashF z ls x l]
      rcases Nat.mod_two_eq_zero_or_one (ls.length / 2 ^ l) with h | h
      · have he2 : 2 * (ls.length / 2 ^ l / 2) + 1 =
            ls.length / 2 ^ l - ls.length / 2 ^ l % 2 + 1 := by omega
        have he1 : 2 * (ls.length / 2 ^ l / 2) = ls.length / 2 ^ l := by omega
        rw [if_pos (show ls.length / 2 ^ l - ls.length / 2 ^ l % 2 = ls.length / 2 ^ l
              from by omega),
          if_neg (show ¬(ls.length / 2 ^ l - ls.length / 2 ^ l % 2 + 1 = ls.length / 2 ^ l)
              from by omega),
          he2, he1, hnodeD, List.nil_append]
        rw [show ls.length / 2 ^ l % 2 = 0 from h]
        rfl
      · have he2 : 2 * (ls.length / 2 ^ l / 2) + 1 = ls.length / 2 ^ l := by omega
        have he1 : 2 * (ls.length / 2 ^ l / 2) =
            ls.length / 2 ^ l - ls.length / 2 ^ l % 2 := by omega
        rw [if_neg (show ¬(ls.length / 2 ^ l - ls.length / 2 ^ l % 2 = ls.length / 2 ^ l)
              from by omega),
          if_pos (show ls.length / 2 ^ l - ls.length / 2 ^ l % 2 + 1 = ls.length / 2 ^ l
              from by omega),
          he2, he1, hnodeD, List.append_nil]
        rw [show ls.length / 2 ^ l % 2 = 1 from h]
        rfl
    rw [hstep, hidx2]
    have hadd : l + (n + 1) = (l + 1) + n := by omega
    rw [hadd]
    exact ih (l + 1) (by omega)

/-- C3: after any prefix of inserts within capacity, inserting a leaf, taking
`createProof` at the index it was inserted at, and running `verifyProof` on
the result returns `true`. -/
theorem insert_createProof_verifyProof (hashF : List Nat → Nat) (depth z : Nat)
    (prior : List Nat) (x : Nat) (h1 : 1 ≤ depth) (h2 : depth ≤ 32)
    (h3 : prior.length < 2 ^ depth) :
    ∃ t0 t t' proof,
      mkTree hashF depth z [] = .ok t0 ∧
      insertAll hashF t0 prior = .ok t ∧
      Tree.insert hashF t x = .ok t' ∧
      t'.createProof (prior.length : Int) = .ok proof ∧
      verifyProofFn hashF proof = true := by
  have hbulk := mkTree_canon hashF z depth [] h1 h2 (by simp)
  have hseq := insertAll_canon hashF z depth h1 prior [] (by simp; omega)
  have hins := insert_canon hashF z depth prior x h1 h3
  have hleaves : (canonNodes hashF z depth (prior ++ [x])).getD 0 [] = prior ++ [x] := by
    rw [canonNodes_getD_lt hashF z depth (prior ++ [x]) 0 (by omega)]
    rfl
  have hproof : Tree.createProof (canonTree hashF z depth (prior ++ [x]))
      (prior.length : Int) = .ok
      { root := (canonTree hashF z depth (prior ++ [x])).root,
        leaf := x,
        pathIndices := (proofLoop (zeroesList hashF z depth) (List.range depth)
          (canonNodes hashF z depth (prior ++ [x])) prior.length).1,
        siblings := (proofLoop (zeroesList hashF z depth) (List.range depth)
          (canonNodes hashF z depth (prior ++ [x])) prior.length).2 } := by
    unfold Tree.createProof createProofFn canonTree
    simp only [hleaves]
    rw [if_neg (by
      simp only [List.length_append, List.length_cons, List.length_nil]
      push_cast
      omega)]
    have htoNat : (prior.length : Int).toNat = prior.length := Int.toNat_natCast _
    rw [htoNat]
    have hleafx : (prior ++ [x]).getD prior.length 0 = x := by
      rw [List.getD_eq_getElem _ _ (by simp)]
      exact List.getElem_concat_length prior x prior.length rfl _
    rw [hleafx]
  refine ⟨canonTree hashF z depth [], canonTree hashF z depth prior,
    canonTree hashF z depth (prior ++ [x]),
    { root := (canonTree hashF z depth (prior ++ [x])).root,
      leaf := x,
      pathIndices := (proofLoop (zeroesList hashF z depth) (List.range depth)
        (canonNodes hashF z depth (prior ++ [x])) prior.length).1,
      siblings := (proofLoop (zeroesList hashF z depth) (List.range depth)
        (canonNodes hashF z depth (prior ++ [x])) prior.length).2 },
    hbulk, by simpa using hseq, hins, hproof, ?_⟩
  unfold verifyProofFn
  have hfold := proofLoop_verifyFold hashF z depth prior x depth 0 (by omega)
  have hzero : prior.length / 2 ^ 0 = prior.length := by simp
  rw [hzero] at hfold
  have hleaf : ((canonLevel hashF z (prior ++ [x]) 0).getD prior.length 0) = x := by
    show (prior ++ [x]).getD prior.length 0 = x
    rw [List.getD_eq_getElem _ _ (by simp)]
    exact List.getElem_concat_length prior x prior.length rfl _
  rw [hleaf] at hfold
  rw [List.range_eq_range' depth]
  rw [hfold]
  have hz2 : (0 : Nat) + depth = depth := by omega
  rw [hz2, Nat.div_eq_of_lt h3]
  have hroot : (canonTree hashF z depth (prior ++ [x])).root =
      (canonLevel hashF z (prior ++ [x]) depth).getD 0 0 := by
    show ((canonNodes hashF z depth (prior ++ [x])).getD depth []).getD 0 0 =
      (canonLevel hashF z (prior ++ [x]) depth).getD 0 0
    rw [canonNodes_getD_last, if_neg (by simp)]
  rw [hroot]
  exact beq_self_eq_true _

/-- Witness for the C3 theorem at depth 2 with prefix `[4, 5]`. -/
theorem insert_createProof_verifyProof_witness :
    (1 ≤ 2 ∧ 2 ≤ 32 ∧ ([4, 5] : List Nat).length < 2 ^ 2) ∧
    ∃ t0 t t' proof,
      mkTree (fun l => l.foldl (· + ·) 1) 2 9 [] = .ok t0 ∧
      insertAll (fun l => l.foldl (· + ·) 1) t0 [4, 5] = .ok t ∧
      Tree.insert (fun l => l.foldl (· + ·) 1) t 6 = .ok t' ∧
      t'.createProof (([4, 5] : List Nat).length : Int) = .ok proof ∧
      verifyProofFn (fun l => l.foldl (· + ·) 1) proof = true :=
  ⟨⟨by omega, by omega, by decide⟩,
    insert_createProof_verifyProof (fun l => l.foldl (· + ·) 1) 2 9 [4, 5] 6
      (by omega) (by omega) (by decide)⟩

/-- C9: `Group.generateMerkleProof` returns the tree's `createProof` result
with every level's one-element siblings window collapsed to its sole scalar:
the collapsed list has length `depth` and entry `l` is the single element of
the tree proof's window at level `l`. -/
theorem generateMerkleProof_collapses (hashF : List Nat → Nat)
    (zeroDerive : Nat → Nat) (id d : Nat) (members : List Nat) (i : Nat)
    (hd1 : 16 ≤ d) (hd2 : d ≤ 32) (hcap : members.length ≤ 2 ^ d)
    (hi : i < members.length) :
    ∃ g mp gp,
      mkGroup hashF zeroDerive id d members = .ok g ∧
      g.tree.createProof (i : Int) = .ok mp ∧
      g.generateMerkleProof (i : Int) = .ok gp ∧
      gp.siblings.length = d ∧
      (∀ l, l < d → (mp.siblings.getD l []).length = 1 ∧
        gp.siblings.getD l 0 = (mp.siblings.getD l []).getD 0 0) := by
  have hgroup : mkGroup hashF zeroDerive id d members =
      .ok { id := id, tree := canonTree hashF (zeroDerive id) d members } := by
    unfold mkGroup
    rw [if_neg (by omega), mkTree_canon hashF (zeroDerive id) d members (by omega) hd2 hcap]
    rfl
  have hleaves : (canonNodes hashF (zeroDerive id) d members).getD 0 [] = members := by
    rw [canonNodes_getD_lt hashF (zeroDerive id) d members 0 (by omega)]
    rfl
  have hproof : Tree.createProof (canonTree hashF (zeroDerive id) d members) (i : Int) =
      .ok { root := (canonTree hashF (zeroDerive id) d members).root,
            leaf := members.getD i 0,
            pathIndices := (proofLoop (zeroesList hashF (zeroDerive id) d)
              (List.range d) (canonNodes hashF (zeroDerive id) d members) i).1,
            siblings := (proofLoop (zeroesList hashF (zeroDerive id) d)
              (List.range d) (canonNodes hashF (zeroDerive id) d members) i).2 } := by
    unfold Tree.createProof createProofFn canonTree
    simp only [hleaves]
    rw [if_neg (by omega)]
    rw [Int.toNat_natCast]
  refine ⟨{ id := id, tree := canonTree hashF (zeroDerive id) d members },
    { root := (canonTree hashF (zeroDerive id) d members).root,
      leaf := members.getD i 0,
      pathIndices := (proofLoop (zeroesList hashF (zeroDerive id) d)
        (List.range d) (canonNodes hashF (zeroDerive id) d members) i).1,
      siblings := (proofLoop (zeroesList hashF (zeroDerive id) d)
        (List.range d) (canonNodes hashF (zeroDerive id) d members) i).2 },
    { root := (canonTree hashF (zeroDerive id) d members).root,
      leaf := members.getD i 0,
      pathIndices := (proofLoop (zeroesList hashF (zeroDerive id) d)
        (List.range d) (canonNodes hashF (zeroDerive id) d members) i).1,
      siblings := ((proofLoop (zeroesList hashF (zeroDerive id) d)
        (List.range d) (canonNodes hashF (zeroDerive id) d members) i).2.map
          fun s => s.getD 0 0) },
    hgroup, hproof, ?_, ?_, ?_⟩
  · show Except.map _ (Tree.createProof _ _) = _
    rw [hproof]
    rfl
  · show ((proofLoop (zeroesList hashF (zeroDerive id) d) (List.range d)
      (canonNodes hashF (zeroDerive id) d members) i).2.map fun s => s.getD 0 0).length = d
    rw [List.length_map, proofLoop_snd_length]
    exact List.length_range d
  · intro l hl
    have hlen2 : (proofLoop (zeroesList hashF (zeroDerive id) d) (List.range d)
        (canonNodes hashF (zeroDerive id) d members) i).2.length = d := by
      rw [proofLoop_snd_length]
      exact List.length_range d
    have hl2 : l < (proofLoop (zeroesList hashF (zeroDerive id) d) (List.range d)
        (canonNodes hashF (zeroDerive id) d members) i).2.length := by omega
    constructor
    · rw [List.getD_eq_getElem _ [] hl2]
      exact proofLoop_sibs_singleton _ _ _ _ _ (List.getElem_mem hl2)
    · show ((proofLoop (zeroesList hashF (zeroDerive id) d) (List.range d)
        (canonNodes hashF (zeroDerive id) d members) i).2.map fun s => s.getD 0 0).getD l 0 = _
      rw [List.getD_eq_getElem _ _ (by simpa using hl2), List.getElem_map]
      rw [List.getD_eq_getElem _ [] hl2]

/-- Witness for the C9 theorem at depth 16 with two members. -/
theorem generateMerkleProof_collapses_witness :
    (16 ≤ 16 ∧ 16 ≤ 32 ∧ ([7, 8] : List Nat).length ≤ 2 ^ 16 ∧ 1 < ([7, 8] : List Nat).length) ∧
    ∃ g mp gp,
      mkGroup (fun l => l.foldl (· + ·) 1) (· + 2) 123 16 [7, 8] = .ok g ∧
      g.tree.createProof ((1 : Nat) : Int) = .ok mp ∧
      g.generateMerkleProof ((1 : Nat) : Int) = .ok gp ∧
      gp.siblings.length = 16 ∧
      (∀ l, l < 16 → (mp.siblings.getD l []).length = 1 ∧
        gp.siblings.getD l 0 = (mp.siblings.getD l []).getD 0 0) :=
  ⟨⟨le_refl 16, by omega, by norm_num, by norm_num⟩,
    generateMerkleProof_collapses (fun l => l.foldl (· + ·) 1) (· + 2) 123 16 [7, 8] 1
      (le_refl 16) (by omega) (by norm_num) (by norm_num)⟩

/-! ## C10: frame property of update (and delete) -/

/-- The upward loop touches, at each level it visits, only the position on
the path `index / 2^level`: every other position of every level, and every
level outside the visited range, keeps its value; a level whose path
position is interior also keeps its length. -/
theorem upLoop_frame (hashF : List Nat → Nat) (zeroes : List Nat) :
    ∀ (n l : Nat) (N : List (List Nat)) (v ci : Nat),
      l + n ≤ N.length →
      (∀ m, m < n → ci / 2 ^ m ≤ (N.getD (l + m) []).length) →
      (upLoop hashF zeroes (List.range' l n) N v ci).1.length = N.length ∧
      (∀ j, j < l ∨ l + n ≤ j →
        (upLoop hashF zeroes (List.range' l n) N v ci).1.getD j [] = N.getD j []) ∧
      (∀ m jj, m < n → jj ≠ ci / 2 ^ m →
        ((upLoop hashF zeroes (List.range' l n) N v ci).1.getD (l + m) []).getD jj 0 =
          (N.getD (l + m) []).getD jj 0) ∧
      (∀ m, m < n → ci / 2 ^ m < (N.getD (l + m) []).length →
        ((upLoop hashF zeroes (List.range' l n) N v ci).1.getD (l + m) []).length =
          (N.getD (l + m) []).length) := by
  intro n
  induction n with
  | zero =>
    intro l N v ci _ _
    exact ⟨rfl, fun j _ => rfl, fun m _ hm => by omega, fun m hm => by omega⟩
  | succ n ih =>
    intro l N v ci hlen hidx
    rw [List.range'_succ]
    simp only [upLoop]
    have hci0 : ci ≤ (N.getD l []).length := by
      have := hidx 0 (by omega)
      simpa using this
    have hdiv : ∀ m : Nat, ci / 2 / 2 ^ m = ci / 2 ^ (m + 1) := by
      intro m
      rw [Nat.div_div_eq_div_mul, pow_succ, mul_comm]
    have hidx' : ∀ m, m < n →
        ci / 2 / 2 ^ m ≤ ((N.set l (listSet (N.getD l []) ci v)).getD (l + 1 + m) []).length := by
      intro m hm
      rw [hdiv m, getD_set_ne' _ _ _ _ _ (by omega)]
      have := hidx (m + 1) (by omega)
      have harr : l + (m + 1) = l + 1 + m := by omega
      rwa [harr] at this
    obtain ⟨ihL, ihU, ihF, ihLL⟩ := ih (l + 1) (N.set l (listSet (N.getD l []) ci v))
      (hashF [if ci - ci % 2 < (listSet (N.getD l []) ci v).length
              then (listSet (N.getD l []) ci v).getD (ci - ci % 2) 0
              else zeroes.getD l 0,
              if ci - ci % 2 + 1 < (listSet (N.getD l []) ci v).length
              then (listSet (N.getD l []) ci v).getD (ci - ci % 2 + 1) 0
              else zeroes.getD l 0])
      (ci / 2) (by rw [List.length_set]; omega) hidx'
    refine ⟨?_, ?_, ?_, ?_⟩
    · rw [ihL]
      simp
    · intro j hj
      rw [ihU j (by omega), getD_set_ne' _ _ _ _ _ (by omega)]
    · intro m jj hm hjj
      rcases Nat.eq_zero_or_pos m with hm0 | hmpos
      · subst hm0
        simp only [Nat.add_zero, pow_zero, Nat.div_one] at hjj ⊢
        rw [ihU l (Or.inl (by omega)), getD_set_self' _ _ _ _ (by omega)]
        exact listSet_getD_ne _ _ _ _ _ hjj hci0
      · obtain ⟨m', rfl⟩ : ∃ m', m = m' + 1 := ⟨m - 1, by omega⟩
        have harr : l + (m' + 1) = (l + 1) + m' := by omega
        rw [harr]
        rw [ihF m' jj (by omega) (by rw [hdiv m']; exact hjj)]
        rw [getD_set_ne' _ _ _ _ _ (by omega)]
    · intro m hm hin
      rcases Nat.eq_zero_or_pos m with hm0 | hmpos
      · subst hm0
        simp only [Nat.add_zero, pow_zero, Nat.div_one] at hin ⊢
        rw [ihU l (Or.inl (by omega)), getD_set_self' _ _ _ _ (by omega)]
        rw [listSet_length, if_pos hin]
      · obtain ⟨m', rfl⟩ : ∃ m', m = m' + 1 := ⟨m - 1, by omega⟩
        have harr : l + (m' + 1) = (l + 1) + m' := by omega
        rw [harr]
        rw [ihLL m' (by omega) ?hin2]
        · rw [getD_set_ne' _ _ _ _ _ (by omega)]
        case hin2 =>
          rw [hdiv m', getD_set_ne' _ _ _ _ _ (by omega)]
          have harr2 : l + (m' + 1) = l + 1 + m' := by omega
          rwa [harr2] at hin

/-- C10: `update(i, v)` on a well-formed tree (nodes arrays with no holes)
succeeds for every valid `i`, keeps the number of leaves unchanged, and
modifies only the path positions `i / 2^l` (the leaf `i` at level 0, its
ancestors above, the root at level `depth`): every other position of every
level keeps its value.  `delete(i)` is by definition `update(i, zeroes[0])`. -/
theorem update_frame (hashF : List Nat → Nat) (t : Tree) (i v : Nat)
    (hdep : 1 ≤ t.depth)
    (hi : i < (t.nodes.getD 0 []).length)
    (hcap : (t.nodes.getD 0 []).length ≤ 2 ^ t.depth)
    (hidx : ∀ l, l < t.depth → i / 2 ^ l ≤ (t.nodes.getD l []).length)
    (hlen : t.nodes.length = t.depth + 1) :
    ∃ t', Tree.update hashF t i v = .ok t' ∧
      (t'.nodes.getD 0 []).length = (t.nodes.getD 0 []).length ∧
      (∀ l j, l ≤ t.depth → j ≠ i / 2 ^ l →
        (t'.nodes.getD l []).getD j 0 = (t.nodes.getD l []).getD j 0) ∧
      Tree.delete hashF t i = Tree.update hashF t i (t.zeroes.getD 0 0) := by
  obtain ⟨hL, hU, hF, hLL⟩ := upLoop_frame hashF t.zeroes t.depth 0 t.nodes v i
    (by omega) (fun m hm => by simpa using hidx m hm)
  have hi2d : i < 2 ^ t.depth := by omega
  have hupd : Tree.update hashF t i v = Except.ok
      { depth := t.depth, zeroes := t.zeroes, nodes :=
          (upLoop hashF t.zeroes (List.range' 0 t.depth) t.nodes v i).1.set t.depth
            (listSet ((upLoop hashF t.zeroes (List.range' 0 t.depth) t.nodes v i).1.getD
              t.depth []) 0 (upLoop hashF t.zeroes (List.range' 0 t.depth) t.nodes v i).2) } := by
    unfold Tree.update updateLeaf
    rw [if_neg (by omega), List.range_eq_range' t.depth]
    rfl
  refine ⟨_, hupd, ?_, ?_, rfl⟩
  · show (((upLoop hashF t.zeroes (List.range' 0 t.depth) t.nodes v i).1.set t.depth
      (listSet ((upLoop hashF t.zeroes (List.range' 0 t.depth) t.nodes v i).1.getD
        t.depth []) 0 (upLoop hashF t.zeroes (List.range' 0 t.depth) t.nodes v i).2)).getD
        0 []).length = (t.nodes.getD 0 []).length
    rw [getD_set_ne' _ _ _ _ _ (by omega)]
    have := hLL 0 (by omega) (by simpa using hi)
    simpa using this
  · intro l j hl hj
    show (((upLoop hashF t.zeroes (List.range' 0 t.depth) t.nodes v i).1.set t.depth
      (listSet ((upLoop hashF t.zeroes (List.range' 0 t.depth) t.nodes v i).1.getD
        t.depth []) 0 (upLoop hashF t.zeroes (List.range' 0 t.depth) t.nodes v i).2)).getD
        l []).getD j 0 = (t.nodes.getD l []).getD j 0
    rcases Nat.lt_or_ge l t.depth with hld | hld
    · rw [getD_set_ne' _ _ _ _ _ (by omega)]
      have := hF l j hld (by simpa using hj)
      simpa using this
    · have hleq : l = t.depth := by omega
      subst hleq
      rw [getD_set_self' _ _ _ _ (by rw [hL]; omega)]
      have hzero : i / 2 ^ t.depth = 0 := Nat.div_eq_of_lt (by omega)
      rw [hzero] at hj
      rw [listSet_getD_ne _ _ _ _ _ hj (by omega)]
      rw [hU t.depth (Or.inr (by omega))]

/-- Witness for the C10 theorem on a concrete depth-1 tree. -/
theorem update_frame_witness :
    (1 ≤ Tree.depth { depth := 1, zeroes := [0], nodes := [[5, 6], [7]] } ∧
     0 < (Tree.nodes { depth := 1, zeroes := [0], nodes := [[5, 6], [7]] } |>.getD 0 []).length ∧
     (Tree.nodes { depth := 1, zeroes := [0], nodes := [[5, 6], [7]] } |>.getD 0 []).length ≤ 2 ^ 1 ∧
     (∀ l, l < 1 → 0 / 2 ^ l ≤
       (Tree.nodes { depth := 1, zeroes := [0], nodes := [[5, 6], [7]] } |>.getD l []).length) ∧
     (Tree.nodes { depth := 1, zeroes := [0], nodes := [[5, 6], [7]] }).length = 1 + 1) ∧
    ∃ t', Tree.update (fun l => l.foldl (· + ·) 1)
        { depth := 1, zeroes := [0], nodes := [[5, 6], [7]] } 0 9 = .ok t' ∧
      (t'.nodes.getD 0 []).length =
        (Tree.nodes { depth := 1, zeroes := [0], nodes := [[5, 6], [7]] } |>.getD 0 []).length ∧
      (∀ l j, l ≤ Tree.depth { depth := 1, zeroes := [0], nodes := [[5, 6], [7]] } →
        j ≠ 0 / 2 ^ l →
        (t'.nodes.getD l []).getD j 0 =
          (Tree.nodes { depth := 1, zeroes := [0], nodes := [[5, 6], [7]] } |>.getD l []).getD j 0) ∧
      Tree.delete (fun l => l.foldl (· + ·) 1)
          { depth := 1, zeroes := [0], nodes := [[5, 6], [7]] } 0 =
        Tree.update (fun l => l.foldl (· + ·) 1)
          { depth := 1, zeroes := [0], nodes := [[5, 6], [7]] } 0
          ((Tree.zeroes { depth := 1, zeroes := [0], nodes := [[5, 6], [7]] }).getD 0 0) :=
  ⟨⟨by decide, by decide, by decide, by decide, by decide⟩,
    update_frame (fun l => l.foldl (· + ·) 1)
      { depth := 1, zeroes := [0], nodes := [[5, 6], [7]] } 0 9
      (by decide) (by decide) (by decide) (by decide) (by decide)⟩

end MinRLN
